import Mathlib

/-!
Shallow embedding of the gmail-mbox-analyzer program (src/main.rs, src/report.rs):
an mbox-to-sqlite indexer and a faceted size-analytics report server.
Strings are modelled as lists of Unicode scalar values (`List Char`), matching
Rust `String`/`&str` viewed as sequences of `char`s.
-/

namespace GmailMbox

abbrev Str := List Char

/-! ## Rust string primitives used by the indexer -/

/-- Code points with the Unicode White_Space property, as tested by Rust's
`char::is_whitespace` (used by `str::trim`). -/
def rustWhitespaceCodes : List Nat :=
  [0x09, 0x0A, 0x0B, 0x0C, 0x0D, 0x20, 0x85, 0xA0, 0x1680,
   0x2000, 0x2001, 0x2002, 0x2003, 0x2004, 0x2005, 0x2006, 0x2007, 0x2008,
   0x2009, 0x200A, 0x2028, 0x2029, 0x202F, 0x205F, 0x3000]

def isRustWhitespace (c : Char) : Bool :=
  rustWhitespaceCodes.contains c.toNat

/-- Rust `str::trim`: remove leading and trailing whitespace characters. -/
def rustTrim (s : Str) : Str :=
  ((s.dropWhile isRustWhitespace).reverse.dropWhile isRustWhitespace).reverse

/-- Rust `str::split(',')`: always yields at least one piece; empty pieces are kept. -/
def splitComma : Str → List Str
  | [] => [[]]
  | c :: rest =>
    if c = ',' then [] :: splitComma rest
    else
      match splitComma rest with
      | [] => [[c]]
      | p :: ps => (c :: p) :: ps

/-- Rust `str::replace(['\n', '\r'], "")`: drop every LF and CR character. -/
def stripLineBreaks (s : Str) : Str :=
  s.filter (fun c => ¬ (c = '\n' ∨ c = '\r'))

/-! ## Model of the `mail_parser` message interface

The indexer consumes a parsed message only through the accessors
`from()`, `sender()`, `date()`, `header_raw("Date")`, `subject()`,
`header_raw("X-Gmail-Labels")` and the raw byte length of the entry;
`ParsedMessage` records the results of those accessors.  `date()` returns
`None` both when the Date header is absent and when it fails to parse;
a successful parse is recorded here directly as its Unix timestamp. -/

structure Addr where
  address : Option Str

structure AddrGroup where
  addresses : List Addr

inductive Address where
  | list (addrs : List Addr)
  | group (groups : List AddrGroup)

structure ParsedMessage where
  fromHdr : Option Address
  senderHdr : Option Address
  dateParsed : Option Int
  dateRaw : Option Str
  subjectHdr : Option Str
  gmailLabels : Option Str
  rawLen : Nat

/-! ## The normalizer (body of the ingestion loop, src/main.rs lines 115-142) -/

/-- Extraction of the first address from a `mail_parser::Address`
(the `match` in `find_from_address`, src/main.rs lines 153-157). -/
def firstAddress : Address → Option Str
  | .list addrs => addrs.head?.bind (fun a => a.address)
  | .group groups => (groups.head?.bind (fun g => g.addresses.head?)).bind (fun a => a.address)

/-- Embedding of `find_from_address` (src/main.rs lines 151-158):
`message.from().or_else(|| message.sender())?`, then the first address. -/
def find_from_address (m : ParsedMessage) : Option Str :=
  (m.fromHdr.or m.senderHdr).bind firstAddress

/-- One row of the `mail` table. -/
structure MailRow where
  size : Nat
  from_address : Str
  date : Int
  raw_date : Option Str
  subject : Str
deriving DecidableEq

/-- Label list of one message (src/main.rs lines 121-128): split the raw
`X-Gmail-Labels` header on commas, trim each piece, strip embedded line
breaks; or the single sentinel label when the header is absent. -/
def labelsOf : Option Str → List Str
  | some gmail_labels => (splitComma gmail_labels).map (fun lbl => stripLineBreaks (rustTrim lbl))
  | none => ["Unlabeled".toList]

/-- Normalization of one parsed entry into a `mail` row plus its label list
(src/main.rs lines 115-128). -/
def normalizeMessage (m : ParsedMessage) : MailRow × List Str :=
  (⟨m.rawLen,
    (find_from_address m).getD ("(unknown sender)".toList),
    m.dateParsed.getD 0,
    m.dateRaw,
    m.subjectHdr.getD ("(no subject)".toList)⟩,
   labelsOf m.gmailLabels)

/-! ## Record store: SQLite state machine for the `index` command

The store is the pair of tables created by `CREATE_MAIL_TABLE`
(src/main.rs lines 35-49).  Readers see the committed state; statements
executed outside an explicit transaction are committed immediately
(SQLite autocommit), statements after `BEGIN` become committed only at
`COMMIT`; an aborted run rolls the open transaction back.  The `labels`
table carries `PRIMARY KEY (mail_rowid, label)`, so inserting an already
present pair fails.  Rowids are assigned sequentially; the `mail` table
is always emptied before the first insert of a run, so a counter starting
at 0 matches SQLite's max-rowid-plus-one assignment along every reachable
state of the run. -/

structure DB where
  mail : List (Int × MailRow)
  labels : List (Int × Str)
deriving DecidableEq

def DB.empty : DB := ⟨[], []⟩

structure Conn where
  committed : DB
  current : DB
  inTxn : Bool
  lastRowid : Int

/-- Apply a write to the connection: visible immediately unless a
transaction is open. -/
def applyWrite (c : Conn) (db : DB) : Conn :=
  if c.inTxn then { c with current := db } else { c with current := db, committed := db }

def execDeleteMail (c : Conn) : Conn :=
  applyWrite c { c.current with mail := [] }

def execDeleteLabels (c : Conn) : Conn :=
  applyWrite c { c.current with labels := [] }

def execBegin (c : Conn) : Conn :=
  { c with inTxn := true }

def execCommit (c : Conn) : Conn :=
  { c with committed := c.current, inTxn := false }

/-- Execute the prepared `INSERT INTO mail` statement; the fresh rowid is
recorded as `lastRowid` (rusqlite `last_insert_rowid`). -/
def execInsertMail (c : Conn) (row : MailRow) : Conn :=
  applyWrite { c with lastRowid := c.lastRowid + 1 }
    { c.current with mail := c.current.mail ++ [(c.lastRowid + 1, row)] }

/-- Execute the prepared `INSERT INTO labels` statement; fails (UNIQUE
constraint on the primary key) when the pair is already present. -/
def execInsertLabel (c : Conn) (rid : Int) (lbl : Str) : Bool × Conn :=
  if (rid, lbl) ∈ c.current.labels then (false, c)
  else (true, applyWrite c { c.current with labels := c.current.labels ++ [(rid, lbl)] })

/-- The label-insert loop of one entry (src/main.rs lines 140-142); the
first failing insert aborts via `?`. -/
def insertLabels (c : Conn) (rid : Int) : List Str → Bool × Conn
  | [] => (true, c)
  | l :: ls =>
    match execInsertLabel c rid l with
    | (false, c2) => (false, c2)
    | (true, c2) => insertLabels c2 rid ls

/-- One iteration of the ingestion loop (src/main.rs lines 102-143).
`none` models the two skip cases (no message bytes, or header parsing
failed): the loop just continues. -/
def processEntry (c : Conn) : Option ParsedMessage → Bool × Conn
  | none => (true, c)
  | some m =>
    insertLabels (execInsertMail c (normalizeMessage m).1)
      (execInsertMail c (normalizeMessage m).1).lastRowid
      (normalizeMessage m).2

def runEntries (c : Conn) : List (Option ParsedMessage) → Bool × Conn
  | [] => (true, c)
  | e :: es =>
    match processEntry c e with
    | (false, c2) => (false, c2)
    | (true, c2) => runEntries c2 es

/-- Embedding of `IndexCommand::run` (src/main.rs lines 60-148) over an
archive whose entries have already been split and parsed.  The two
`DELETE` statements run before `BEGIN` and are therefore autocommitted;
the per-entry inserts run inside the transaction.  The returned flag is
success, the returned `DB` is the state visible to readers afterwards
(on failure the open transaction is rolled back, leaving the committed
state). -/
def indexRun (archive : List (Option ParsedMessage)) (prior : DB) : Bool × DB :=
  match runEntries (execBegin (execDeleteLabels (execDeleteMail ⟨prior, prior, false, 0⟩))) archive with
  | (false, cf) => (false, cf.committed)
  | (true, c4) => (true, (execCommit c4).committed)

/-! ## Filters (src/report.rs lines 103-174) -/

structure Filters where
  label : Option Str
  year : Option Str
  domain : Option Str
  address : Option Str
deriving DecidableEq

def Filters.hasAny (f : Filters) : Bool :=
  f.label.isSome || f.year.isSome || f.domain.isSome || f.address.isSome

/-- The `add_clause` closure of `Filters::clause` (src/report.rs lines
142-147): it inspects only presence of the value. -/
def addClause (words : List String) (column : String) (present : Bool) : List String :=
  if present then words ++ [if words.isEmpty then "WHERE" else "AND", column, "=", "?"]
  else words

/-- The word list built by `Filters::clause` (src/report.rs lines 130-159). -/
def clauseWords (f : Filters) : List String :=
  let w0 : List String :=
    if f.label.isSome then ["JOIN", "labels", "ON", "labels.mail_rowid", "=", "mail._rowid_"]
    else []
  let w1 := addClause w0 "labels.label" f.label.isSome
  let w2 := addClause w1 "strftime(\x27%Y\x27, datetime(date, \x27unixepoch\x27))" f.year.isSome
  let w3 := addClause w2 "substr(from_address, instr(from_address, \x27@\x27) + 1)" f.domain.isSome
  addClause w3 "from_address" f.address.isSome

/-- Embedding of `Filters::clause`: `words.join(" ")`. -/
def Filters.clause (f : Filters) : String :=
  String.intercalate " " (clauseWords f)

/-- Embedding of `Filters::params` (src/report.rs lines 161-173): the
present constraint values, pushed in the order label, year, domain,
address. -/
def Filters.params (f : Filters) : List Str :=
  f.label.toList ++ f.year.toList ++ f.domain.toList ++ f.address.toList

/-! ## SQL semantics of the report queries

`strftime('%Y', datetime(date, 'unixepoch'))` is the UTC calendar year of
the Unix timestamp, zero-padded to four digits; the year computation uses
the standard civil-from-days conversion.  `substr(from_address,
instr(from_address, '@') + 1)` is everything after the first `@`, or the
whole string when there is no `@` (`instr` returns 0 then). -/

def civilYearOfDays (z : Int) : Int :=
  let z2 := z + 719468
  let era := (if 0 ≤ z2 then z2 else z2 - 146096) / 146097
  let doe := z2 - era * 146097
  let yoe := (doe - doe / 1460 + doe / 36524 - doe / 146096) / 365
  let y := yoe + era * 400
  let doy := doe - (365 * yoe + yoe / 4 - yoe / 100)
  let mp := (5 * doy + 2) / 153
  let m := if mp < 10 then mp + 3 else mp - 9
  if m ≤ 2 then y + 1 else y

def yearOf (t : Int) : Str :=
  let s := (toString (civilYearOfDays (t.ediv 86400))).toList
  List.replicate (4 - s.length) '0' ++ s

def domainOf (s : Str) : Str :=
  match s.findIdx? (fun c => c = '@') with
  | some i => s.drop (i + 1)
  | none => s

/-- The non-join conditions of the WHERE clause, evaluated on one `mail`
row. -/
def mailMatches (f : Filters) (p : Int × MailRow) : Bool :=
  (match f.year with | none => true | some y => yearOf p.2.date = y) &&
  (match f.domain with | none => true | some d => domainOf p.2.from_address = d) &&
  (match f.address with | none => true | some a => p.2.from_address = a)

/-- The row multiset of `FROM mail {clause}`: when a label constraint is
present the clause joins `labels` on `labels.mail_rowid = mail._rowid_`
and filters `labels.label = ?`, so each mail row is repeated once per
matching label row; otherwise it is the filtered `mail` table. -/
def filteredRows (f : Filters) (db : DB) : List (Int × MailRow) :=
  let base :=
    match f.label with
    | none => db.mail
    | some l =>
      db.mail.flatMap (fun p =>
        (db.labels.filter (fun q : Int × Str => q.1 = p.1 ∧ q.2 = l)).map (fun _ => p))
  base.filter (mailMatches f)

/-- SQL `SUM`: NULL (`none`) over the empty row set, the total otherwise. -/
def sqlSum : List Nat → Option Nat
  | [] => none
  | x :: xs => some (x + xs.sum)

/-- The grand total computed once at service start
(src/report.rs line 46): `SELECT SUM(size) FROM mail`, read as a `u64`,
so startup fails when the table is empty. -/
def startTotal (db : DB) : Option Nat :=
  sqlSum (db.mail.map (fun p => p.2.size))

/-! ## Grouping and ranking (the four breakdown queries)

SQLite's BINARY collation orders TEXT by memcmp of the UTF-8 encoding,
which coincides with lexicographic order on code points.  A `GROUP BY`
without a usable index feeds the rows through a sorter on the grouping
expression, so groups are emitted in ascending key order.  The outer
`ORDER BY total_size DESC` carries no secondary key, so the order of
equal sums is up to SQLite's sorter, which prepends each incoming record
to its in-memory list before merging: records with equal sort keys come
back out in reverse insertion order.  Tied groups therefore appear in
descending group-key order (verified empirically on these queries),
modelled below as a stable `List.mergeSort` of the reversed group
list. -/

def strLe : Str → Str → Bool
  | [], _ => true
  | _ :: _, [] => false
  | a :: s, b :: t =>
    if a.toNat < b.toNat then true
    else if b.toNat < a.toNat then false
    else strLe s t

/-- Group a list of (key, size) pairs: distinct keys in ascending binary
order, each mapped to the sum of its sizes. -/
def groupPairs (pairs : List (Str × Nat)) : List (Str × Nat) :=
  (((pairs.map (fun r => r.1)).dedup).mergeSort strLe).map
    (fun key => (key, ((pairs.filter (fun r => r.1 = key)).map (fun r => r.2)).sum))

/-- `ORDER BY total_size DESC` over the group rows: the sorter reverses
the incoming rows, then merge-sorts stably on the summed size, so equal
sums keep reverse insertion order (descending group key). -/
def rankBySize (gs : List (Str × Nat)) : List (Str × Nat) :=
  (gs.reverse).mergeSort (fun a b => decide (b.2 ≤ a.2))

/-- Row multiset of the by-label query (src/report.rs lines 241-248):
`FROM labels JOIN mail ON labels.mail_rowid = mail._rowid_ {clause}`,
projected to (label, size).  It only runs when no label filter is
pinned, so the clause contributes no second join. -/
def labelRows (f : Filters) (db : DB) : List (Str × Nat) :=
  db.labels.flatMap (fun q =>
    (db.mail.filter (fun p : Int × MailRow => p.1 = q.1 ∧ mailMatches f p)).map
      (fun p => (q.2, p.2.size)))

/-- The by-label breakdown (src/report.rs lines 237-271); empty when the
label facet is pinned. -/
def byLabel (f : Filters) (db : DB) : List (Str × Nat) :=
  if f.label.isSome then []
  else rankBySize (groupPairs (labelRows f db))

/-- The by-year breakdown (src/report.rs lines 273-306). -/
def byYear (f : Filters) (db : DB) : List (Str × Nat) :=
  if f.year.isSome then []
  else rankBySize (groupPairs ((filteredRows f db).map (fun p => (yearOf p.2.date, p.2.size))))

/-- The by-domain breakdown (src/report.rs lines 308-342), capped at 30. -/
def byDomain (f : Filters) (db : DB) : List (Str × Nat) :=
  if f.domain.isSome then []
  else (rankBySize (groupPairs ((filteredRows f db).map
        (fun p => (domainOf p.2.from_address, p.2.size))))).take 30

/-- The by-address breakdown (src/report.rs lines 344-378), capped at 30. -/
def byAddress (f : Filters) (db : DB) : List (Str × Nat) :=
  if f.address.isSome then []
  else (rankBySize (groupPairs ((filteredRows f db).map
        (fun p => (p.2.from_address, p.2.size))))).take 30

/-- The top-30 largest matching messages (src/report.rs lines 380-407):
`ORDER BY size DESC LIMIT 30`, projected to the four emitted columns. -/
def topMail (f : Filters) (db : DB) : List (Str × Nat × Str × Option Str) :=
  (((filteredRows f db).mergeSort (fun a b => decide (b.2.size ≤ a.2.size))).take 30).map
    (fun p => (p.2.from_address, p.2.size, p.2.subject, p.2.raw_date))

/-! ## URL encoding (`Filters::to_url`, src/report.rs lines 112-121)

`to_url` serializes the present fields through the `url` crate's
query-pair serializer (`application/x-www-form-urlencoded`): each value's
UTF-8 bytes are emitted literally when alphanumeric or one of `*-._`,
as `+` for space, and percent-encoded (uppercase hex) otherwise; pairs
are `key=value` joined by `&`, appended after `fake:/?`, and the
`fake:` scheme is stripped, so the result always starts with `/?`. -/

def utf8Bytes (c : Char) : List Nat :=
  let n := c.toNat
  if n < 0x80 then [n]
  else if n < 0x800 then [0xC0 + n / 64, 0x80 + n % 64]
  else if n < 0x10000 then [0xE0 + n / 4096, 0x80 + (n / 64) % 64, 0x80 + n % 64]
  else [0xF0 + n / 262144, 0x80 + (n / 4096) % 64, 0x80 + (n / 64) % 64, 0x80 + n % 64]

def isSafeByte (b : Nat) : Bool :=
  (48 ≤ b ∧ b ≤ 57) ∨ (65 ≤ b ∧ b ≤ 90) ∨ (97 ≤ b ∧ b ≤ 122) ∨
    b = 42 ∨ b = 45 ∨ b = 46 ∨ b = 95

def hexDigit (n : Nat) : Char :=
  if n < 10 then Char.ofNat (48 + n) else Char.ofNat (55 + n)

def encodeByte (b : Nat) : List Char :=
  if isSafeByte b then [Char.ofNat b]
  else if b = 32 then ['+']
  else ['%', hexDigit (b / 16), hexDigit (b % 16)]

def encodeValue (s : Str) : List Char :=
  (s.flatMap utf8Bytes).flatMap encodeByte

def joinAmp : List (List Char) → List Char
  | [] => []
  | [p] => p
  | p :: ps => p ++ '&' :: joinAmp ps

/-- The query pairs appended by `to_url`, in its fixed field order. -/
def queryPairs (f : Filters) : List (List Char) :=
  (match f.label with
   | some v => [("label".toList) ++ '=' :: encodeValue v]
   | none => []) ++
  (match f.year with
   | some v => [("year".toList) ++ '=' :: encodeValue v]
   | none => []) ++
  (match f.domain with
   | some v => [("domain".toList) ++ '=' :: encodeValue v]
   | none => []) ++
  (match f.address with
   | some v => [("address".toList) ++ '=' :: encodeValue v]
   | none => [])

/-- Embedding of `Filters::to_url`. -/
def toUrl (f : Filters) : List Char :=
  '/' :: '?' :: joinAmp (queryPairs f)

/-! ## Query-parameter decoding (`web::Query<Filters>`, src/report.rs line 177)

Actix extracts the query string after `?` and deserializes it with
`serde_urlencoded`: pairs are split on `&` (empty pieces skipped), each
pair splits at its first `=` (missing `=` means empty value), keys and
values are percent-plus-decoded and must be valid UTF-8; unknown keys
are ignored by the derived deserializer, duplicated known keys are an
error, and absent keys leave the `Option` fields `None`. -/

def hexVal (c : Char) : Option Nat :=
  if 48 ≤ c.toNat ∧ c.toNat ≤ 57 then some (c.toNat - 48)
  else if 65 ≤ c.toNat ∧ c.toNat ≤ 70 then some (c.toNat - 55)
  else if 97 ≤ c.toNat ∧ c.toNat ≤ 102 then some (c.toNat - 87)
  else none

/-- Fuel-bounded percent-plus decoding loop; the fuel is an upper bound
on the list length. -/
def percentDecodeAux : Nat → List Char → List Nat
  | _, [] => []
  | 0, _ :: _ => []
  | fuel + 1, c :: rest =>
    if c = '%' then
      match rest with
      | c1 :: c2 :: rest2 =>
        match hexVal c1, hexVal c2 with
        | some hi, some lo => (16 * hi + lo) :: percentDecodeAux fuel rest2
        | _, _ => 37 :: percentDecodeAux fuel rest
      | _ => 37 :: percentDecodeAux fuel rest
    else if c = '+' then 32 :: percentDecodeAux fuel rest
    else c.toNat :: percentDecodeAux fuel rest

/-- Percent-plus decoding to bytes; a `%` not followed by two hex digits
passes through literally. -/
def percentDecode (s : List Char) : List Nat :=
  percentDecodeAux s.length s

theorem percentDecodeAux_fuel : ∀ (f1 : Nat) (l : List Char) (f2 : Nat),
    l.length ≤ f1 → l.length ≤ f2 → percentDecodeAux f1 l = percentDecodeAux f2 l := by
  intro f1
  induction f1 with
  | zero =>
    intro l f2 h1 _
    rw [List.length_eq_zero.mp (Nat.le_zero.mp h1)]
    cases f2 <;> rfl
  | succ g1 ih =>
    intro l f2 h1 h2
    cases l with
    | nil => cases f2 <;> rfl
    | cons c rest =>
      cases f2 with
      | zero => simp at h2
      | succ g2 =>
        simp only [List.length_cons] at h1 h2
        simp only [percentDecodeAux]
        by_cases hc : c = '%'
        · simp only [if_pos hc]
          cases rest with
          | nil => rw [ih [] g2 (by simp) (by simp)]
          | cons c1 rest1 =>
            cases rest1 with
            | nil =>
              simp at h1 h2
              rw [ih _ g2 (by simp; omega) (by simp; omega)]
            | cons c2 rest2 =>
              simp at h1 h2
              have e1 := ih rest2 g2 (by omega) (by omega)
              have e2 := ih (c1 :: c2 :: rest2) g2 (by simp; omega) (by simp; omega)
              simp only [e1, e2]
        · simp only [if_neg hc]
          by_cases hp : c = '+'
          · simp only [if_pos hp]
            rw [ih _ g2 (by omega) (by omega)]
          · simp only [if_neg hp]
            rw [ih _ g2 (by omega) (by omega)]

/-- Decode one UTF-8 scalar: lead byte, remaining bytes; yields the code
point and the bytes after the sequence. -/
def utf8DecodeOne (b0 : Nat) (bs : List Nat) : Option (Nat × List Nat) :=
  if b0 < 0x80 then some (b0, bs)
  else if b0 < 0xC0 then none
  else if b0 < 0xE0 then
    match bs with
    | b1 :: bs2 =>
      if 0x80 ≤ b1 ∧ b1 < 0xC0 then some ((b0 - 0xC0) * 64 + (b1 - 0x80), bs2) else none
    | [] => none
  else if b0 < 0xF0 then
    match bs with
    | b1 :: b2 :: bs3 =>
      if (0x80 ≤ b1 ∧ b1 < 0xC0) ∧ (0x80 ≤ b2 ∧ b2 < 0xC0) then
        some (((b0 - 0xE0) * 64 + (b1 - 0x80)) * 64 + (b2 - 0x80), bs3)
      else none
    | _ => none
  else if b0 < 0xF8 then
    match bs with
    | b1 :: b2 :: b3 :: bs4 =>
      if ((0x80 ≤ b1 ∧ b1 < 0xC0) ∧ (0x80 ≤ b2 ∧ b2 < 0xC0)) ∧ (0x80 ≤ b3 ∧ b3 < 0xC0) then
        some ((((b0 - 0xF0) * 64 + (b1 - 0x80)) * 64 + (b2 - 0x80)) * 64 + (b3 - 0x80), bs4)
      else none
    | _ => none
  else none

theorem utf8DecodeOne_rest_le {b0 : Nat} {bs : List Nat} {n : Nat} {rest : List Nat}
    (h : utf8DecodeOne b0 bs = some (n, rest)) : rest.length ≤ bs.length := by
  unfold utf8DecodeOne at h
  rcases bs with _ | ⟨b1, _ | ⟨b2, _ | ⟨b3, bs4⟩⟩⟩ <;>
    split_ifs at h <;> (try simp at h) <;> (try cases h) <;> simp_all <;> omega

/-- Fuel-bounded decoding loop; the fuel is an upper bound on the list
length, so `utf8Decode` below always supplies enough. -/
def utf8DecodeAux : Nat → List Nat → Option Str
  | _, [] => some []
  | 0, _ :: _ => none
  | fuel + 1, b0 :: bs =>
    match utf8DecodeOne b0 bs with
    | none => none
    | some (n, rest) => (utf8DecodeAux fuel rest).map (fun s => Char.ofNat n :: s)

/-- UTF-8 decoding of a byte list (`String::from_utf8` semantics for the
sequences the serializer can emit). -/
def utf8Decode (l : List Nat) : Option Str :=
  utf8DecodeAux l.length l

theorem utf8DecodeAux_fuel : ∀ (f1 : Nat) (l : List Nat) (f2 : Nat),
    l.length ≤ f1 → l.length ≤ f2 → utf8DecodeAux f1 l = utf8DecodeAux f2 l := by
  intro f1
  induction f1 with
  | zero =>
    intro l f2 h1 _
    rw [List.length_eq_zero.mp (Nat.le_zero.mp h1)]
    cases f2 <;> rfl
  | succ g1 ih =>
    intro l f2 h1 h2
    cases l with
    | nil => cases f2 <;> rfl
    | cons b0 bs =>
      cases f2 with
      | zero => simp at h2
      | succ g2 =>
        cases hone : utf8DecodeOne b0 bs with
        | none => simp [utf8DecodeAux, hone]
        | some p =>
          rcases p with ⟨n, rest⟩
          have hr := utf8DecodeOne_rest_le hone
          simp only [List.length_cons] at h1 h2
          simp only [utf8DecodeAux, hone]
          rw [ih rest g2 (by omega) (by omega)]

def decodeValue (s : List Char) : Option Str :=
  utf8Decode (percentDecode s)

/-- Split on `&`. -/
def splitAmp : List Char → List (List Char)
  | [] => [[]]
  | c :: rest =>
    if c = '&' then [] :: splitAmp rest
    else
      match splitAmp rest with
      | [] => [[c]]
      | p :: ps => (c :: p) :: ps

def decodePair (p : List Char) : Option (Str × Str) :=
  let key := p.takeWhile (fun c => ¬ c = '=')
  let rest := p.dropWhile (fun c => ¬ c = '=')
  let rawVal := match rest with | _ :: t => t | [] => []
  match decodeValue key, decodeValue rawVal with
  | some k, some v => some (k, v)
  | _, _ => none

def parsePairs (q : List Char) : Option (List (Str × Str)) :=
  ((splitAmp q).filter (fun p => ¬ p.isEmpty)).mapM decodePair

/-- The derived serde visitor over the decoded pairs: known keys fill
their field once (a second occurrence is a duplicate-field error),
unknown keys are ignored. -/
def buildFilters (acc : Filters) : List (Str × Str) → Option Filters
  | [] => some acc
  | (k, v) :: rest =>
    if k = "label".toList then
      match acc.label with
      | some _ => none
      | none => buildFilters { acc with label := some v } rest
    else if k = "year".toList then
      match acc.year with
      | some _ => none
      | none => buildFilters { acc with year := some v } rest
    else if k = "domain".toList then
      match acc.domain with
      | some _ => none
      | none => buildFilters { acc with domain := some v } rest
    else if k = "address".toList then
      match acc.address with
      | some _ => none
      | none => buildFilters { acc with address := some v } rest
    else buildFilters acc rest

/-- Decoding of a path-with-query string as the analytics endpoint
receives it: everything after the first `?` is the query string. -/
def decodeUrl (s : List Char) : Option Filters :=
  match s with
  | '/' :: rest =>
    let q := match rest with
      | '?' :: q => q
      | _ => []
    (parsePairs q).bind (buildFilters ⟨none, none, none, none⟩)
  | _ => none

/-! ## The analytics handler (`index`, src/report.rs lines 176-426)

The view model keeps sizes as numbers; the source formats them through
`humansize` only when building the rendering context, which is external
display formatting.  The handler aborts (modelled as `none`) exactly
where the source `unwrap`s a failed column read: `SELECT SUM(size)`
returns SQL NULL over an empty row set, and reading NULL as `u64`
fails. -/

structure ViewModel where
  total_size : Nat
  filtered_size : Nat
  active_filters : List (Str × List Char)
  by_label : List (Str × Nat × List Char)
  by_year : List (Str × Nat × List Char)
  by_domain : List (Str × Nat × List Char)
  by_address : List (Str × Nat × List Char)
  top_mail : List (Str × Nat × Str × Option Str)

/-- The `active_filters` list (src/report.rs lines 180-220): one entry
per present facet, with the URL that removes just that facet. -/
def activeFilters (f : Filters) : List (Str × List Char) :=
  (match f.label with
   | some key => [(key, toUrl { f with label := none })]
   | none => []) ++
  (match f.year with
   | some key => [(key, toUrl { f with year := none })]
   | none => []) ++
  (match f.domain with
   | some key => [(key, toUrl { f with domain := none })]
   | none => []) ++
  (match f.address with
   | some key => [(key, toUrl { f with address := none })]
   | none => [])

/-- Embedding of the `index` handler body.  `total` is the grand total
precomputed at service start. -/
def handler (f : Filters) (db : DB) (total : Nat) : Option ViewModel :=
  let filteredSize : Option Nat :=
    if f.hasAny then sqlSum ((filteredRows f db).map (fun p => p.2.size))
    else some total
  match filteredSize with
  | none => none
  | some filtered =>
    some
      { total_size := total
        filtered_size := filtered
        active_filters := activeFilters f
        by_label := (byLabel f db).map (fun g => (g.1, g.2, toUrl { f with label := some g.1 }))
        by_year := (byYear f db).map (fun g => (g.1, g.2, toUrl { f with year := some g.1 }))
        by_domain := (byDomain f db).map (fun g => (g.1, g.2, toUrl { f with domain := some g.1 }))
        by_address := (byAddress f db).map (fun g => (g.1, g.2, toUrl { f with address := some g.1 }))
        top_mail := topMail f db }

/-! ## Supporting lemmas -/

theorem splitComma_eq_splitOn (s : Str) : splitComma s = s.splitOn ',' := by
  induction s with
  | nil => simp [splitComma, List.splitOn, List.splitOnP_nil]
  | cons c rest ih =>
    by_cases hc : c = ','
    · simp [splitComma, hc, List.splitOn, List.splitOnP_cons, ih]
    · have hne : rest.splitOn ',' ≠ [] := List.splitOnP_ne_nil _ rest
      cases hrest : rest.splitOn ',' with
      | nil => exact absurd hrest hne
      | cons p ps =>
        simp only [splitComma, if_neg hc, ih, hrest]
        simp [List.splitOn, List.splitOnP_cons, hc]
        simpa [List.splitOn, hrest] using congrArg (List.modifyHead (List.cons c)) hrest.symm

/-! ## Claim theorems -/

/-- C6: the normalizer's label set is the single sentinel label
`"Unlabeled"` when the label header is absent; when it is present it is
the comma-separated pieces of the raw header value, each trimmed of
surrounding whitespace and stripped of embedded line breaks, kept in
order without deduplication; in particular header `"A, B"` yields
exactly the labels `A` and `B`. -/
theorem labels_split_trim_keep_order (s : Str) :
    labelsOf none = ["Unlabeled".toList] ∧
    labelsOf (some s) = (s.splitOn ',').map (fun piece => stripLineBreaks (rustTrim piece)) ∧
    labelsOf (some ("A, B".toList)) = ["A".toList, "B".toList] ∧
    labelsOf (some ("A, A".toList)) = ["A".toList, "A".toList] := by
  refine ⟨rfl, ?_, by decide, by decide⟩
  simp [labelsOf, splitComma_eq_splitOn]

/-- C7: when the date header is missing or fails to parse (the parser
yields no date), the stored numeric `date` is the epoch-zero timestamp
while `raw_date` is exactly the raw header text (present if and only if
the header is present): numeric and textual date are decoupled. -/
theorem date_epoch_zero_raw_preserved (m : ParsedMessage) (h : m.dateParsed = none) :
    (normalizeMessage m).1.date = 0 ∧ (normalizeMessage m).1.raw_date = m.dateRaw := by
  simp [normalizeMessage, h]

def msgBadDate : ParsedMessage :=
  ⟨none, none, none, some ("not a date".toList), some ("subj".toList), none, 12⟩

theorem date_epoch_zero_raw_preserved_witness :
    (normalizeMessage msgBadDate).1.date = 0 ∧
    (normalizeMessage msgBadDate).1.raw_date = msgBadDate.dateRaw :=
  date_epoch_zero_raw_preserved msgBadDate rfl

def specFirstAddress : Address → Option Str
  | .list [] => none
  | .list (a :: _) => a.address
  | .group [] => none
  | .group (g :: _) =>
    match g.addresses with
    | [] => none
    | a :: _ => a.address

/-- Resolution chain as the specification words it: primary sender
header, then fallback sender header, then first address of a flat list,
then first address of the first group, then none. -/
def specResolveFrom (m : ParsedMessage) : Option Str :=
  match m.fromHdr with
  | some a => specFirstAddress a
  | none =>
    match m.senderHdr with
    | some a => specFirstAddress a
    | none => none

theorem firstAddress_eq_spec (a : Address) : firstAddress a = specFirstAddress a := by
  cases a with
  | list addrs => cases addrs <;> simp [firstAddress, specFirstAddress]
  | group groups =>
    cases groups with
    | nil => simp [firstAddress, specFirstAddress]
    | cons g gs => cases hg : g.addresses <;> simp [firstAddress, specFirstAddress, hg]

/-- C8: the sender address is resolved by the spec's chain — primary
sender header, fallback sender header, first address of a flat list,
first address of the first group, else none — with the first successful
step winning, and the sentinel `"(unknown sender)"` stored when the
chain yields none. -/
theorem from_address_resolution_order (m : ParsedMessage) :
    find_from_address m = specResolveFrom m ∧
    (normalizeMessage m).1.from_address = (specResolveFrom m).getD ("(unknown sender)".toList) := by
  have h : find_from_address m = specResolveFrom m := by
    cases hf : m.fromHdr with
    | some a => simp [find_from_address, specResolveFrom, hf, Option.or, firstAddress_eq_spec]
    | none =>
      cases hs : m.senderHdr <;>
        simp [find_from_address, specResolveFrom, hf, hs, Option.or, firstAddress_eq_spec]
  exact ⟨h, by simp [normalizeMessage, h]⟩

/-- C9: the generated SQL clause text depends only on which facets are
present, never on the constraint values, and the bound parameters are
exactly the present values in the fixed order label, year, domain,
address. -/
theorem clause_presence_only_params_ordered (f g : Filters)
    (h : f.label.isSome = g.label.isSome ∧ f.year.isSome = g.year.isSome ∧
         f.domain.isSome = g.domain.isSome ∧ f.address.isSome = g.address.isSome) :
    Filters.clause f = Filters.clause g ∧
    Filters.params f = [f.label, f.year, f.domain, f.address].filterMap id := by
  obtain ⟨h1, h2, h3, h4⟩ := h
  constructor
  · unfold Filters.clause clauseWords
    rw [h1, h2, h3, h4]
  · rcases f with ⟨fl, fy, fd, fa⟩
    cases fl <;> cases fy <;> cases fd <;> cases fa <;> simp [Filters.params]

theorem clause_presence_only_params_ordered_witness :
    ((⟨some ("Work".toList), none, none, none⟩ : Filters).label.isSome =
        (⟨some ("Personal stuff".toList), none, none, none⟩ : Filters).label.isSome) ∧
    Filters.clause ⟨some ("Work".toList), none, none, none⟩ =
      Filters.clause ⟨some ("Personal stuff".toList), none, none, none⟩ :=
  ⟨by decide,
   (clause_presence_only_params_ordered
      ⟨some ("Work".toList), none, none, none⟩
      ⟨some ("Personal stuff".toList), none, none, none⟩
      (by decide)).1⟩

/-- C3: under the empty filter the handler reports a filtered total equal
to the sum of `size` over all stored mail rows, which is the grand total
precomputed at service start (service start requires a nonempty `mail`
table, since `SUM` over an empty table reads as NULL). -/
theorem empty_filter_total_is_sum (db : DB) (total : Nat)
    (h : startTotal db = some total) :
    ∃ vm, handler ⟨none, none, none, none⟩ db total = some vm ∧
      vm.filtered_size = (db.mail.map (fun p => p.2.size)).sum ∧
      vm.filtered_size = total := by
  have hsum : total = (db.mail.map (fun p => p.2.size)).sum := by
    unfold startTotal at h
    cases hm : db.mail with
    | nil => rw [hm] at h; simp [sqlSum] at h
    | cons p ps =>
      rw [hm] at h
      simp [sqlSum] at h
      simp [← h]
  refine ⟨_, rfl, ?_, rfl⟩
  simp [handler, Filters.hasAny, hsum]

def dbW : DB := ⟨[(1, ⟨100, "a@x.com".toList, 0, none, "s".toList⟩)], [(1, "Inbox".toList)]⟩

theorem empty_filter_total_is_sum_witness :
    startTotal dbW = some 100 ∧
    ∃ vm, handler ⟨none, none, none, none⟩ dbW 100 = some vm ∧
      vm.filtered_size = (dbW.mail.map (fun p => p.2.size)).sum ∧
      vm.filtered_size = 100 :=
  ⟨by decide, empty_filter_total_is_sum dbW 100 (by decide)⟩

/-! ## Lemmas about the index run -/

theorem applyWrite_committed (c : Conn) (db : DB) (h : c.inTxn = true) :
    (applyWrite c db).committed = c.committed := by
  simp [applyWrite, h]

theorem applyWrite_inTxn (c : Conn) (db : DB) :
    (applyWrite c db).inTxn = c.inTxn := by
  unfold applyWrite; split <;> rfl

theorem insertLabels_keeps (ls : List Str) (c : Conn) (rid : Int) (h : c.inTxn = true) :
    (insertLabels c rid ls).2.committed = c.committed ∧
    (insertLabels c rid ls).2.inTxn = true := by
  induction ls generalizing c with
  | nil => exact ⟨rfl, h⟩
  | cons l t ih =>
    by_cases hm : (rid, l) ∈ c.current.labels
    · simp [insertLabels, execInsertLabel, hm, h]
    · have hw : (applyWrite c { c.current with labels := c.current.labels ++ [(rid, l)] }).inTxn = true := by
        rw [applyWrite_inTxn]; exact h
      simp only [insertLabels, execInsertLabel, if_neg hm]
      rcases ih _ hw with ⟨h1, h2⟩
      exact ⟨h1.trans (applyWrite_committed _ _ h), h2⟩

theorem processEntry_keeps (e : Option ParsedMessage) (c : Conn) (h : c.inTxn = true) :
    (processEntry c e).2.committed = c.committed ∧
    (processEntry c e).2.inTxn = true := by
  cases e with
  | none => exact ⟨rfl, h⟩
  | some m =>
    have hw : (execInsertMail c (normalizeMessage m).1).inTxn = true := by
      unfold execInsertMail; rw [applyWrite_inTxn]; exact h
    have hc : (execInsertMail c (normalizeMessage m).1).committed = c.committed := by
      unfold execInsertMail; exact applyWrite_committed _ _ h
    simp only [processEntry]
    rcases insertLabels_keeps (normalizeMessage m).2 _ (execInsertMail c (normalizeMessage m).1).lastRowid hw with ⟨h1, h2⟩
    exact ⟨h1.trans hc, h2⟩

theorem runEntries_keeps (es : List (Option ParsedMessage)) (c : Conn) (h : c.inTxn = true) :
    (runEntries c es).2.committed = c.committed ∧
    (runEntries c es).2.inTxn = true := by
  induction es generalizing c with
  | nil => exact ⟨rfl, h⟩
  | cons e t ih =>
    rcases hpe : processEntry c e with ⟨b, c2⟩
    have hk := processEntry_keeps e c h
    rw [hpe] at hk
    cases b with
    | false => simpa [runEntries, hpe] using hk
    | true =>
      rcases ih c2 hk.2 with ⟨h1, h2⟩
      simp only [runEntries, hpe]
      exact ⟨h1.trans hk.1, h2⟩

/-- C1 (amended): the store visible after a failed index run is empty. -/
theorem index_failure_leaves_store_empty (archive : List (Option ParsedMessage)) (prior : DB)
    (h : (indexRun archive prior).1 = false) :
    (indexRun archive prior).2 = DB.empty := by
  unfold indexRun
  have hc3 : (execBegin (execDeleteLabels (execDeleteMail ⟨prior, prior, false, 0⟩))).committed = DB.empty := rfl
  have hc3t : (execBegin (execDeleteLabels (execDeleteMail ⟨prior, prior, false, 0⟩))).inTxn = true := rfl
  rcases hre : runEntries (execBegin (execDeleteLabels (execDeleteMail ⟨prior, prior, false, 0⟩))) archive with ⟨b, cf⟩
  have hk := runEntries_keeps archive _ hc3t
  rw [hre] at hk
  cases b with
  | false => simpa using hk.1.trans hc3
  | true =>
    unfold indexRun at h
    rw [hre] at h
    simp at h

/-! ## Duplicate-label failure (C10) -/

theorem insertLabels_mem_false (ls : List Str) (c : Conn) (rid : Int) (l : Str)
    (hl : l ∈ ls) (hmem : (rid, l) ∈ c.current.labels) :
    (insertLabels c rid ls).1 = false := by
  induction ls generalizing c with
  | nil => cases hl
  | cons a t ih =>
    by_cases hm : (rid, a) ∈ c.current.labels
    · simp [insertLabels, execInsertLabel, hm]
    · have hne : l ≠ a := fun he => hm (he ▸ hmem)
      have hlt : l ∈ t := by
        rcases List.mem_cons.mp hl with h1 | h1
        · exact absurd h1 hne
        · exact h1
      simp only [insertLabels, execInsertLabel, if_neg hm]
      apply ih _ hlt
      show (rid, l) ∈ (applyWrite c { c.current with labels := c.current.labels ++ [(rid, a)] }).current.labels
      unfold applyWrite
      split <;> simp <;> exact Or.inl hmem

theorem insertLabels_dup_false (ls : List Str) (c : Conn) (rid : Int)
    (hdup : ¬ ls.Nodup) :
    (insertLabels c rid ls).1 = false := by
  induction ls generalizing c with
  | nil => exact absurd List.nodup_nil hdup
  | cons a t ih =>
    by_cases hm : (rid, a) ∈ c.current.labels
    · simp [insertLabels, execInsertLabel, hm]
    · simp only [insertLabels, execInsertLabel, if_neg hm]
      by_cases hat : a ∈ t
      · apply insertLabels_mem_false t _ rid a hat
        show (rid, a) ∈ (applyWrite c { c.current with labels := c.current.labels ++ [(rid, a)] }).current.labels
        unfold applyWrite
        split <;> simp
      · apply ih
        intro hnd
        exact hdup (List.nodup_cons.mpr ⟨hat, hnd⟩)

theorem insertLabels_nodup_true (ls : List Str) (c : Conn) (rid : Int)
    (hnd : ls.Nodup) (hfresh : ∀ l ∈ ls, (rid, l) ∉ c.current.labels) :
    (insertLabels c rid ls).1 = true ∧
    (insertLabels c rid ls).2.current.labels = c.current.labels ++ ls.map (fun l => (rid, l)) ∧
    (insertLabels c rid ls).2.lastRowid = c.lastRowid := by
  induction ls generalizing c with
  | nil => exact ⟨rfl, by simp [insertLabels], rfl⟩
  | cons a t ih =>
    have hm : (rid, a) ∉ c.current.labels := hfresh a (List.mem_cons_self a t)
    simp only [insertLabels, execInsertLabel, if_neg hm]
    have hcur : (applyWrite c { c.current with labels := c.current.labels ++ [(rid, a)] }).current.labels
        = c.current.labels ++ [(rid, a)] := by
      unfold applyWrite; split <;> rfl
    have hlr : (applyWrite c { c.current with labels := c.current.labels ++ [(rid, a)] }).lastRowid
        = c.lastRowid := by
      unfold applyWrite; split <;> rfl
    have hfresh2 : ∀ l ∈ t, (rid, l) ∉ (applyWrite c { c.current with labels := c.current.labels ++ [(rid, a)] }).current.labels := by
      intro l hl
      rw [hcur]
      intro hmem
      rcases List.mem_append.mp hmem with h1 | h1
      · exact hfresh l (List.mem_cons_of_mem a hl) h1
      · have : l = a := by simpa using h1
        exact (List.nodup_cons.mp hnd).1 (this ▸ hl)
    rcases ih _ (List.nodup_cons.mp hnd).2 hfresh2 with ⟨h1, h2, h3⟩
    refine ⟨h1, ?_, h3.trans hlr⟩
    rw [h2, hcur]
    simp

def ConnInv (c : Conn) : Prop :=
  c.inTxn = true ∧ ∀ p ∈ c.current.labels, p.1 ≤ c.lastRowid

theorem processEntry_some_spec (c : Conn) (m : ParsedMessage) (hInv : ConnInv c) :
    ((processEntry c (some m)).1 = true ↔ (labelsOf m.gmailLabels).Nodup) ∧
    ((processEntry c (some m)).1 = true → ConnInv (processEntry c (some m)).2) := by
  obtain ⟨hTxn, hBound⟩ := hInv
  have hP : processEntry c (some m) =
      insertLabels (execInsertMail c (normalizeMessage m).1)
        (execInsertMail c (normalizeMessage m).1).lastRowid (labelsOf m.gmailLabels) := rfl
  have hcur : (execInsertMail c (normalizeMessage m).1).current.labels = c.current.labels := by
    unfold execInsertMail applyWrite; split <;> rfl
  have hlr : (execInsertMail c (normalizeMessage m).1).lastRowid = c.lastRowid + 1 := by
    unfold execInsertMail applyWrite; split <;> rfl
  have htx : (execInsertMail c (normalizeMessage m).1).inTxn = true := by
    unfold execInsertMail; rw [applyWrite_inTxn]; exact hTxn
  have hfresh : ∀ l ∈ (labelsOf m.gmailLabels),
      ((execInsertMail c (normalizeMessage m).1).lastRowid, l) ∉
        (execInsertMail c (normalizeMessage m).1).current.labels := by
    intro l _ hmem
    rw [hcur, hlr] at hmem
    have := hBound _ hmem
    omega
  by_cases hnd : (labelsOf m.gmailLabels).Nodup
  · rcases insertLabels_nodup_true (labelsOf m.gmailLabels) _ _ hnd hfresh with ⟨h1, h2, h3⟩
    have hlab : (processEntry c (some m)).1 = true := by rw [hP]; exact h1
    refine ⟨by rw [hlab]; simp [hnd], ?_⟩
    intro _
    constructor
    · have hk := insertLabels_keeps (labelsOf m.gmailLabels)
        (execInsertMail c (normalizeMessage m).1)
        (execInsertMail c (normalizeMessage m).1).lastRowid htx
      rw [hP]
      exact hk.2
    · intro p hp
      rw [hP] at hp
      rw [h2] at hp
      have hlr2 : (processEntry c (some m)).2.lastRowid = c.lastRowid + 1 := by
        rw [hP, h3, hlr]
      rw [hlr2]
      rcases List.mem_append.mp hp with h4 | h4
      · rw [hcur] at h4
        have := hBound _ h4
        omega
      · rcases List.mem_map.mp h4 with ⟨l, _, hl⟩
        rw [← hl]
        simp [hlr]
  · have hf := insertLabels_dup_false (labelsOf m.gmailLabels) (execInsertMail c (normalizeMessage m).1)
      (execInsertMail c (normalizeMessage m).1).lastRowid hnd
    have hlab : (processEntry c (some m)).1 = false := by rw [hP]; exact hf
    refine ⟨by rw [hlab]; simp [hnd], ?_⟩
    intro htrue
    rw [htrue] at hlab
    exact absurd hlab.symm Bool.false_ne_true

theorem runEntries_fails_of_dup (es : List (Option ParsedMessage)) (c : Conn)
    (hInv : ConnInv c)
    (h : ∃ m, some m ∈ es ∧ ¬ (labelsOf m.gmailLabels).Nodup) :
    (runEntries c es).1 = false := by
  induction es generalizing c with
  | nil => rcases h with ⟨m, hm, _⟩; cases hm
  | cons e t ih =>
    rcases h with ⟨m, hm, hdup⟩
    rcases List.mem_cons.mp hm with he | he
    · have hspec := processEntry_some_spec c m hInv
      rw [he] at hspec
      have hfst : (processEntry c e).1 = false := by
        cases hb : (processEntry c e).1 with
        | false => rfl
        | true => exact absurd (hspec.1.mp hb) hdup
      rcases hpe : processEntry c e with ⟨b, c2⟩
      rw [hpe] at hfst
      simp at hfst
      simp [runEntries, hpe, hfst]
    · rcases hpe : processEntry c e with ⟨b, c2⟩
      cases b with
      | false => simp [runEntries, hpe]
      | true =>
        have hInv2 : ConnInv c2 := by
          cases e with
          | none =>
            have : c = c2 := by simpa [processEntry] using congrArg Prod.snd hpe
            rw [← this]; exact hInv
          | some m2 =>
            have hspec := processEntry_some_spec c m2 hInv
            rw [hpe] at hspec
            exact hspec.2 rfl
        simp only [runEntries, hpe]
        exact ih c2 hInv2 ⟨m, he, hdup⟩

/-- C10: an entry whose label header yields the same label twice is not
skipped or deduplicated: the duplicate `(message, label)` insert violates
the primary key and the whole indexing run aborts with the error. -/
theorem duplicate_label_aborts_run (archive : List (Option ParsedMessage)) (prior : DB)
    (h : ∃ m, some m ∈ archive ∧ ¬ (labelsOf m.gmailLabels).Nodup) :
    (indexRun archive prior).1 = false := by
  unfold indexRun
  have hInv : ConnInv (execBegin (execDeleteLabels (execDeleteMail ⟨prior, prior, false, 0⟩))) := by
    refine ⟨rfl, ?_⟩
    intro p hp
    simp [execBegin, execDeleteLabels, execDeleteMail, applyWrite] at hp
  have hre := runEntries_fails_of_dup archive _ hInv h
  rcases hr : runEntries (execBegin (execDeleteLabels (execDeleteMail ⟨prior, prior, false, 0⟩))) archive with ⟨b, cf⟩
  rw [hr] at hre
  simp at hre
  simp [hre]

def msgDup : ParsedMessage :=
  ⟨none, none, none, none, none, some ("A, A".toList), 5⟩

theorem duplicate_label_aborts_run_witness :
    (indexRun [some msgDup] DB.empty).1 = false :=
  duplicate_label_aborts_run [some msgDup] DB.empty
    ⟨msgDup, List.mem_singleton.mpr rfl, by decide⟩

/-- C1 (counterexample): with a nonempty previously committed store, a
run that fails mid-ingestion (here on a duplicate-label insert) leaves
the store empty, not at its prior contents: the two `DELETE` statements
run before `BEGIN` and are committed on their own. -/
theorem index_failure_not_prior_contents :
    (indexRun [some msgDup] dbW).1 = false ∧
    (indexRun [some msgDup] dbW).2 ≠ dbW ∧
    dbW.mail ≠ [] := by
  refine ⟨?_, ?_, by decide⟩ <;> decide

theorem index_failure_leaves_store_empty_witness :
    (indexRun [some msgDup] dbW).1 = false ∧
    (indexRun [some msgDup] dbW).2 = DB.empty :=
  ⟨by decide, index_failure_leaves_store_empty [some msgDup] dbW (by decide)⟩

/-! ## C2: the analytics handler on zero-match filters -/

/-- C2 (counterexample): a label constraint matching no stored message
makes the handler abort: `SELECT SUM(size)` over zero rows is SQL NULL,
and reading NULL as an unsigned integer fails under the handler's
`unwrap`.  `dbW` holds one message labelled `Inbox`; filtering on label
`X` aborts. -/
theorem handler_aborts_on_zero_match :
    handler ⟨some ("X".toList), none, none, none⟩ dbW 100 = none := by
  rfl

/-- C2 (amended): the handler returns a view-model if and only if the
filter is empty or at least one row matches it; a non-empty filter
matching zero stored messages aborts the handler, so user input can make
the analytics path fail. -/
theorem handler_some_iff_rows (f : Filters) (db : DB) (total : Nat) :
    (handler f db total).isSome = true ↔ (f.hasAny = false ∨ filteredRows f db ≠ []) := by
  unfold handler
  cases hf : f.hasAny with
  | false => simp
  | true =>
    cases hrows : filteredRows f db with
    | nil => simp [hrows, sqlSum]
    | cons r rs => simp [hrows, sqlSum]

/-! ## C5: ordering of the breakdowns -/

theorem char_toNat_inj {a b : Char} (h : a.toNat = b.toNat) : a = b := by
  have h2 := congrArg Char.ofNat h
  rwa [Char.ofNat_toNat, Char.ofNat_toNat] at h2

theorem strLe_total : ∀ (a b : Str), strLe a b = true ∨ strLe b a = true
  | [], _ => Or.inl rfl
  | _ :: _, [] => Or.inr rfl
  | a :: s, b :: t => by
    by_cases h1 : a.toNat < b.toNat
    · left; simp [strLe, h1]
    · by_cases h2 : b.toNat < a.toNat
      · right; simp [strLe, h2]
      · rcases strLe_total s t with h | h
        · left; simp [strLe, h1, h2, h]
        · right; simp [strLe, h1, h2, h]

theorem strLe_trans : ∀ (a b c : Str),
    strLe a b = true → strLe b c = true → strLe a c = true
  | [], _, _ => fun _ _ => rfl
  | a :: s, [], _ => by intro h1 _; simp [strLe] at h1
  | a :: s, b :: t, [] => by intro _ h2; simp [strLe] at h2
  | a :: s, b :: t, c :: u => by
    intro h1 h2
    by_cases hab : a.toNat < b.toNat
    · by_cases hbc : b.toNat < c.toNat
      · simp [strLe, show a.toNat < c.toNat by omega]
      · by_cases hcb : c.toNat < b.toNat
        · simp [strLe, hbc, hcb] at h2
        · simp [strLe, show a.toNat < c.toNat by omega]
    · by_cases hba : b.toNat < a.toNat
      · simp [strLe, hab, hba] at h1
      · by_cases hbc : b.toNat < c.toNat
        · simp [strLe, show a.toNat < c.toNat by omega]
        · by_cases hcb : c.toNat < b.toNat
          · simp [strLe, hbc, hcb] at h2
          · have hs : strLe s t = true := by simpa [strLe, hab, hba] using h1
            have ht : strLe t u = true := by simpa [strLe, hbc, hcb] using h2
            simp [strLe, show ¬ a.toNat < c.toNat by omega,
              show ¬ c.toNat < a.toNat by omega, strLe_trans s t u hs ht]

theorem strLe_antisymm : ∀ (a b : Str), strLe a b = true → strLe b a = true → a = b
  | [], [] => fun _ _ => rfl
  | [], _ :: _ => by intro _ h2; simp [strLe] at h2
  | _ :: _, [] => by intro h1 _; simp [strLe] at h1
  | a :: s, b :: t => by
    intro h1 h2
    by_cases hab : a.toNat < b.toNat
    · simp [strLe, hab, show ¬ b.toNat < a.toNat by omega] at h2
    · by_cases hba : b.toNat < a.toNat
      · simp [strLe, hab, hba] at h1
      · have hs : strLe s t = true := by simpa [strLe, hab, hba] using h1
        have ht : strLe t s = true := by simpa [strLe, hab, hba] using h2
        rw [strLe_antisymm s t hs ht, char_toNat_inj (by omega : a.toNat = b.toNat)]

theorem pair_sublist_of_ne {α : Type} {l : List α} {x y : α}
    (hx : x ∈ l) (hy : y ∈ l) (hne : x ≠ y) :
    List.Sublist [x, y] l ∨ List.Sublist [y, x] l := by
  induction l with
  | nil => cases hx
  | cons a t ih =>
    rcases List.mem_cons.mp hx with rfl | hx2
    · have hy2 : y ∈ t := by
        rcases List.mem_cons.mp hy with h | h
        · exact absurd h.symm hne
        · exact h
      exact Or.inl (List.Sublist.cons₂ x (List.singleton_sublist.mpr hy2))
    · rcases List.mem_cons.mp hy with rfl | hy2
      · exact Or.inr (List.Sublist.cons₂ y (List.singleton_sublist.mpr hx2))
      · rcases ih hx2 hy2 with h | h
        · exact Or.inl (h.cons a)
        · exact Or.inr (h.cons a)

theorem not_pair_both_ways {α : Type} : ∀ (l : List α), l.Nodup →
    ∀ (x y : α), List.Sublist [x, y] l → List.Sublist [y, x] l → x = y := by
  intro l
  induction l with
  | nil => intro _ x y h1 _; simp at h1
  | cons a t ih =>
    intro hnd x y h1 h2
    have hna : a ∉ t := (List.nodup_cons.mp hnd).1
    have hndt : t.Nodup := (List.nodup_cons.mp hnd).2
    cases h1 with
    | cons _ h1t =>
      cases h2 with
      | cons _ h2t => exact ih hndt x y h1t h2t
      | cons₂ _ h2t => exact absurd (h1t.subset (by simp)) hna
    | cons₂ _ h1t =>
      cases h2 with
      | cons _ h2t => exact absurd (h2t.subset (by simp)) hna
      | cons₂ _ h2t => rfl

/-- Ordering the program actually produces in every breakdown: strictly
larger summed size first, equal sums in descending order of the facet's
own string value. -/
def breakdownOrd (a b : Str × Nat) : Prop :=
  b.2 < a.2 ∨ (a.2 = b.2 ∧ strLe b.1 a.1 = true ∧ a.1 ≠ b.1)

theorem rankBySize_pairwise (gs : List (Str × Nat))
    (h : gs.Pairwise (fun a b => strLe a.1 b.1 = true ∧ a.1 ≠ b.1)) :
    (rankBySize gs).Pairwise breakdownOrd := by
  unfold rankBySize
  have htrans : ∀ (a b c : Str × Nat),
      (fun a b : Str × Nat => decide (b.2 ≤ a.2)) a b →
      (fun a b : Str × Nat => decide (b.2 ≤ a.2)) b c →
      (fun a b : Str × Nat => decide (b.2 ≤ a.2)) a c := by
    intro a b c h1 h2
    simp only [decide_eq_true_eq] at h1 h2 ⊢
    omega
  have htotal : ∀ (a b : Str × Nat),
      ((fun a b : Str × Nat => decide (b.2 ≤ a.2)) a b ||
       (fun a b : Str × Nat => decide (b.2 ≤ a.2)) b a) = true := by
    intro a b
    simp only [Bool.or_eq_true, decide_eq_true_eq]
    omega
  have hnodup : gs.Nodup := h.imp (fun hab he => hab.2 (by rw [he]))
  have hnodupR : gs.reverse.Nodup := by simpa using hnodup
  have hrev : gs.reverse.Pairwise (fun a b => strLe b.1 a.1 = true ∧ b.1 ≠ a.1) :=
    List.pairwise_reverse.mpr h
  have hnodup2 : (gs.reverse.mergeSort (fun a b => decide (b.2 ≤ a.2))).Nodup :=
    (List.mergeSort_perm gs.reverse _).nodup_iff.mpr hnodupR
  have hsorted := @List.sorted_mergeSort _ (fun a b : Str × Nat => decide (b.2 ≤ a.2))
    htrans htotal gs.reverse
  rw [List.pairwise_iff_forall_sublist]
  intro x y hxy
  have hle : y.2 ≤ x.2 := by
    have h2 := List.pairwise_iff_forall_sublist.mp hsorted hxy
    simpa using h2
  by_cases hlt : y.2 < x.2
  · exact Or.inl hlt
  · have heq : x.2 = y.2 := by omega
    have hxne : x ≠ y := by
      have h3 : ([x, y] : List (Str × Nat)).Nodup := hxy.nodup hnodup2
      simpa using h3
    have hxmem : x ∈ gs.reverse := List.mem_mergeSort.mp (hxy.subset (by simp))
    have hymem : y ∈ gs.reverse := List.mem_mergeSort.mp (hxy.subset (by simp))
    rcases pair_sublist_of_ne hxmem hymem hxne with hp | hp
    · have h4 := List.pairwise_iff_forall_sublist.mp hrev hp
      exact Or.inr ⟨heq, h4.1, Ne.symm h4.2⟩
    · have hyx : List.Sublist [y, x] (gs.reverse.mergeSort (fun a b => decide (b.2 ≤ a.2))) :=
        List.pair_sublist_mergeSort htrans htotal
          (by simp only [decide_eq_true_eq]; omega) hp
      exact absurd (not_pair_both_ways _ hnodup2 x y hxy hyx) hxne

theorem groupPairs_pairwise (pairs : List (Str × Nat)) :
    (groupPairs pairs).Pairwise (fun a b => strLe a.1 b.1 = true ∧ a.1 ≠ b.1) := by
  unfold groupPairs
  rw [List.pairwise_map]
  have htotal : ∀ (a b : Str), (strLe a b || strLe b a) = true := by
    intro a b
    rcases strLe_total a b with h | h <;> simp [h]
  have hkey : (((pairs.map (fun r => r.1)).dedup).mergeSort strLe).Pairwise
      (fun a b => strLe a b = true) :=
    @List.sorted_mergeSort _ strLe strLe_trans htotal _
  have hnd : (((pairs.map (fun r => r.1)).dedup).mergeSort strLe).Nodup :=
    (List.mergeSort_perm _ _).nodup_iff.mpr (List.nodup_dedup _)
  exact (hkey.and hnd).imp (fun hab => ⟨hab.1, hab.2⟩)

theorem ranked_pairwise (pairs : List (Str × Nat)) :
    (rankBySize (groupPairs pairs)).Pairwise breakdownOrd :=
  rankBySize_pairwise _ (groupPairs_pairwise pairs)

/-- Scenario store of claim C5: addresses `a@x.com` (size 10),
`b@x.com` (size 20), `c@y.com` (size 30). -/
def dbScenario : DB :=
  ⟨[(1, ⟨10, "a@x.com".toList, 0, none, "s1".toList⟩),
    (2, ⟨20, "b@x.com".toList, 0, none, "s2".toList⟩),
    (3, ⟨30, "c@y.com".toList, 0, none, "s3".toList⟩)],
   [(1, "Unlabeled".toList), (2, "Unlabeled".toList), (3, "Unlabeled".toList)]⟩

/-- C5 (code evaluated at the failing input): on the claim's own
scenario — addresses `a@x.com` (size 10), `b@x.com` (size 20),
`c@y.com` (size 30) — the empty-filter domain breakdown lists
`y.com` = 30 before `x.com` = 30, not `x.com` first as claimed: the
generated query orders by `total_size DESC` with no secondary key, and
SQLite's sorter emits equal-sum groups in reverse insertion order, i.e.
descending by group key, the opposite of the mandated ascending
tie-break. -/
theorem byDomain_scenario_ties_descending :
    byDomain ⟨none, none, none, none⟩ dbScenario =
      [("y.com".toList, 30), ("x.com".toList, 30)] ∧
    ¬ byDomain ⟨none, none, none, none⟩ dbScenario =
      [("x.com".toList, 30), ("y.com".toList, 30)] := by
  have e1 : groupPairs ((filteredRows ⟨none, none, none, none⟩ dbScenario).map
      (fun p => (domainOf p.2.from_address, p.2.size))) =
      [("x.com".toList, 30), ("y.com".toList, 30)] := by
    unfold groupPairs
    rw [show ((((filteredRows ⟨none, none, none, none⟩ dbScenario).map
          (fun p => (domainOf p.2.from_address, p.2.size))).map (fun r => r.1)).dedup) =
        ["x.com".toList, "y.com".toList] from by decide]
    rw [List.mergeSort_of_sorted (by decide)]
    decide
  have e2 : byDomain ⟨none, none, none, none⟩ dbScenario =
      [("y.com".toList, 30), ("x.com".toList, 30)] := by
    unfold byDomain
    rw [if_neg (by decide), e1]
    unfold rankBySize
    rw [show ([("x.com".toList, 30), ("y.com".toList, 30)] : List (Str × Nat)).reverse =
        [("y.com".toList, 30), ("x.com".toList, 30)] from by decide]
    rw [List.mergeSort_of_sorted (by decide)]
    decide
  refine ⟨e2, ?_⟩
  rw [e2]
  decide

/-! ## C4: round trip of the URL encoding -/

theorem char_toNat_lt (c : Char) : c.toNat < 1114112 := by
  rcases c.valid with h | ⟨h1, h2⟩
  · exact Nat.lt_trans h (by norm_num)
  · exact h2

theorem utf8DecodeOne_bytes (c : Char) (bs : List Nat) :
    ∃ hd tl, utf8Bytes c = hd :: tl ∧ utf8DecodeOne hd (tl ++ bs) = some (c.toNat, bs) := by
  have hlt := char_toNat_lt c
  by_cases h1 : c.toNat < 0x80
  · refine ⟨c.toNat, [], by simp [utf8Bytes, h1], ?_⟩
    simp [utf8DecodeOne, h1]
  · by_cases h2 : c.toNat < 0x800
    · refine ⟨0xC0 + c.toNat / 64, [0x80 + c.toNat % 64], by simp [utf8Bytes, h1, h2], ?_⟩
      have d1 : ¬ (0xC0 + c.toNat / 64 < 0x80) := by omega
      have d2 : ¬ (0xC0 + c.toNat / 64 < 0xC0) := by omega
      have d3 : 0xC0 + c.toNat / 64 < 0xE0 := by omega
      have d4 : 0x80 ≤ 0x80 + c.toNat % 64 ∧ 0x80 + c.toNat % 64 < 0xC0 := by omega
      simp [utf8DecodeOne, d1, d2, d3, d4]
      omega
    · by_cases h3 : c.toNat < 0x10000
      · refine ⟨0xE0 + c.toNat / 4096, [0x80 + (c.toNat / 64) % 64, 0x80 + c.toNat % 64],
          by simp [utf8Bytes, h1, h2, h3], ?_⟩
        have d1 : ¬ (0xE0 + c.toNat / 4096 < 0x80) := by omega
        have d2 : ¬ (0xE0 + c.toNat / 4096 < 0xC0) := by omega
        have d3 : ¬ (0xE0 + c.toNat / 4096 < 0xE0) := by omega
        have d4 : 0xE0 + c.toNat / 4096 < 0xF0 := by omega
        have d5 : (0x80 ≤ 0x80 + (c.toNat / 64) % 64 ∧ 0x80 + (c.toNat / 64) % 64 < 0xC0) ∧
            (0x80 ≤ 0x80 + c.toNat % 64 ∧ 0x80 + c.toNat % 64 < 0xC0) := by omega
        simp [utf8DecodeOne, d1, d2, d3, d4, d5]
        omega
      · refine ⟨0xF0 + c.toNat / 262144,
          [0x80 + (c.toNat / 4096) % 64, 0x80 + (c.toNat / 64) % 64, 0x80 + c.toNat % 64],
          by simp [utf8Bytes, h1, h2, h3], ?_⟩
        have d1 : ¬ (0xF0 + c.toNat / 262144 < 0x80) := by omega
        have d2 : ¬ (0xF0 + c.toNat / 262144 < 0xC0) := by omega
        have d3 : ¬ (0xF0 + c.toNat / 262144 < 0xE0) := by omega
        have d4 : ¬ (0xF0 + c.toNat / 262144 < 0xF0) := by omega
        have d5 : 0xF0 + c.toNat / 262144 < 0xF8 := by omega
        have d6 : ((0x80 ≤ 0x80 + (c.toNat / 4096) % 64 ∧ 0x80 + (c.toNat / 4096) % 64 < 0xC0) ∧
            (0x80 ≤ 0x80 + (c.toNat / 64) % 64 ∧ 0x80 + (c.toNat / 64) % 64 < 0xC0)) ∧
            (0x80 ≤ 0x80 + c.toNat % 64 ∧ 0x80 + c.toNat % 64 < 0xC0) := by omega
        simp [utf8DecodeOne, d1, d2, d3, d4, d5, d6]
        omega

theorem utf8Decode_bytes (c : Char) (bs : List Nat) :
    utf8Decode (utf8Bytes c ++ bs) = (utf8Decode bs).map (fun s => c :: s) := by
  obtain ⟨hd, tl, he, hb⟩ := utf8DecodeOne_bytes c bs
  unfold utf8Decode
  rw [he, List.cons_append]
  simp only [List.length_cons, utf8DecodeAux, hb]
  rw [utf8DecodeAux_fuel (tl ++ bs).length bs bs.length (by simp) (by simp)]
  simp only [Char.ofNat_toNat]

theorem utf8Decode_flatMap (s : Str) :
    utf8Decode (s.flatMap utf8Bytes) = some s := by
  induction s with
  | nil => rfl
  | cons c t ih =>
    rw [List.flatMap_cons, utf8Decode_bytes, ih]
    rfl

theorem toNat_ofNat_small {b : Nat} (h : b < 55296) : (Char.ofNat b).toNat = b := by
  have hv : Nat.isValidChar b := Or.inl h
  simp [Char.ofNat, hv, Char.ofNatAux, Char.toNat, UInt32.toNat, BitVec.toNat_ofNatLt]

theorem hexVal_hexDigit (d : Nat) (h : d < 16) : hexVal (hexDigit d) = some d := by
  by_cases h10 : d < 10
  · have ht : (hexDigit d).toNat = 48 + d := by
      unfold hexDigit
      rw [if_pos h10]
      exact toNat_ofNat_small (by omega)
    unfold hexVal
    rw [ht, if_pos (by omega)]
    congr 1
    omega
  · have ht : (hexDigit d).toNat = 55 + d := by
      unfold hexDigit
      rw [if_neg h10]
      exact toNat_ofNat_small (by omega)
    unfold hexVal
    rw [ht, if_neg (by omega), if_pos (by omega)]
    congr 1
    omega

theorem percentDecode_encodeByte (b : Nat) (hb : b < 256) (rest : List Char) :
    percentDecode (encodeByte b ++ rest) = b :: percentDecode rest := by
  by_cases hs : isSafeByte b
  · have hset : (48 ≤ b ∧ b ≤ 57) ∨ (65 ≤ b ∧ b ≤ 90) ∨ (97 ≤ b ∧ b ≤ 122) ∨
        b = 42 ∨ b = 45 ∨ b = 46 ∨ b = 95 := by
      simpa [isSafeByte] using hs
    have ht : (Char.ofNat b).toNat = b := toNat_ofNat_small (by omega)
    have hne1 : ¬ (Char.ofNat b = '%') := by
      intro he
      have h2 := congrArg Char.toNat he
      rw [ht, show ('%' : Char).toNat = 37 from rfl] at h2
      omega
    have hne2 : ¬ (Char.ofNat b = '+') := by
      intro he
      have h2 := congrArg Char.toNat he
      rw [ht, show ('+' : Char).toNat = 43 from rfl] at h2
      omega
    rw [show encodeByte b = [Char.ofNat b] from by simp [encodeByte, hs]]
    show percentDecode (Char.ofNat b :: rest) = _
    unfold percentDecode
    simp only [List.length_cons, percentDecodeAux, if_neg hne1, if_neg hne2, ht]
  · by_cases h32 : b = 32
    · rw [show encodeByte b = ['+'] from by
        simp [encodeByte, h32, show isSafeByte 32 = false from by decide]]
      show percentDecode ('+' :: rest) = _
      unfold percentDecode
      rw [h32]
      simp only [List.length_cons, percentDecodeAux]
      simp
    · rw [show encodeByte b = ['%', hexDigit (b / 16), hexDigit (b % 16)] from by
        simp [encodeByte, hs, h32]]
      show percentDecode ('%' :: hexDigit (b / 16) :: hexDigit (b % 16) :: rest) = _
      unfold percentDecode
      simp only [List.length_cons, percentDecodeAux, if_pos rfl,
        hexVal_hexDigit (b / 16) (by omega), hexVal_hexDigit (b % 16) (by omega)]
      rw [percentDecodeAux_fuel (rest.length + 1 + 1) rest rest.length (by omega) (by omega),
        if_pos trivial]
      congr 1
      omega

theorem percentDecode_encodeBytes (bytes : List Nat) (h : ∀ b ∈ bytes, b < 256)
    (rest : List Char) :
    percentDecode (bytes.flatMap encodeByte ++ rest) = bytes ++ percentDecode rest := by
  induction bytes with
  | nil => simp
  | cons b t ih =>
    rw [List.flatMap_cons, List.append_assoc,
      percentDecode_encodeByte b (h b (List.mem_cons_self b t)) _,
      ih (fun x hx => h x (List.mem_cons_of_mem b hx))]
    rfl

theorem utf8Bytes_lt (c : Char) : ∀ b ∈ utf8Bytes c, b < 256 := by
  have hlt := char_toNat_lt c
  intro b hb
  simp only [utf8Bytes] at hb
  split_ifs at hb <;> simp at hb <;> omega

theorem decodeValue_encodeValue (v : Str) : decodeValue (encodeValue v) = some v := by
  unfold decodeValue encodeValue
  have h := percentDecode_encodeBytes (v.flatMap utf8Bytes)
    (by intro b hb; rcases List.mem_flatMap.mp hb with ⟨c, _, hc⟩; exact utf8Bytes_lt c b hc) []
  rw [List.append_nil] at h
  rw [h]
  show utf8Decode (v.flatMap utf8Bytes ++ []) = some v
  rw [List.append_nil, utf8Decode_flatMap]

theorem hexDigit_ne_sep (d : Nat) (h : d < 16) :
    ¬ hexDigit d = '&' ∧ ¬ hexDigit d = '=' := by
  have ht : (hexDigit d).toNat = (if d < 10 then 48 + d else 55 + d) := by
    unfold hexDigit
    split_ifs <;> exact toNat_ofNat_small (by omega)
  constructor <;> intro he <;> have h2 := congrArg Char.toNat he <;> rw [ht] at h2 <;>
    revert h2 <;> split_ifs <;>
    simp [show ('&' : Char).toNat = 38 from rfl, show ('=' : Char).toNat = 61 from rfl] <;>
    omega

theorem encodeByte_sep (b : Nat) (hb : b < 256) :
    ∀ ch ∈ encodeByte b, ¬ ch = '&' ∧ ¬ ch = '=' := by
  intro ch hch
  unfold encodeByte at hch
  split_ifs at hch with hs h32
  · have hset : (48 ≤ b ∧ b ≤ 57) ∨ (65 ≤ b ∧ b ≤ 90) ∨ (97 ≤ b ∧ b ≤ 122) ∨
        b = 42 ∨ b = 45 ∨ b = 46 ∨ b = 95 := by
      simpa [isSafeByte] using hs
    simp at hch
    subst hch
    refine ⟨fun he => ?_, fun he => ?_⟩
    · have h2 := congrArg Char.toNat he
      rw [toNat_ofNat_small (by omega), show ('&' : Char).toNat = 38 from rfl] at h2
      omega
    · have h2 := congrArg Char.toNat he
      rw [toNat_ofNat_small (by omega), show ('=' : Char).toNat = 61 from rfl] at h2
      omega
  · simp at hch
    subst hch
    exact ⟨by decide, by decide⟩
  · simp at hch
    rcases hch with rfl | rfl | rfl
    · exact ⟨by decide, by decide⟩
    · exact hexDigit_ne_sep _ (by omega)
    · exact hexDigit_ne_sep _ (by omega)

theorem encodeValue_sep (v : Str) : ∀ ch ∈ encodeValue v, ¬ ch = '&' ∧ ¬ ch = '=' := by
  intro ch hch
  unfold encodeValue at hch
  rcases List.mem_flatMap.mp hch with ⟨b, hbmem, hchb⟩
  have hb : b < 256 := by
    rcases List.mem_flatMap.mp hbmem with ⟨c, _, hc⟩
    exact utf8Bytes_lt c b hc
  exact encodeByte_sep b hb ch hchb

theorem splitAmp_no_amp (p : List Char) (h : ∀ c ∈ p, ¬ c = '&') : splitAmp p = [p] := by
  induction p with
  | nil => rfl
  | cons c q ih =>
    have hc : ¬ c = '&' := h c (List.mem_cons_self c q)
    have hq := ih (fun x hx => h x (List.mem_cons_of_mem c hx))
    simp only [splitAmp, if_neg hc, hq]

theorem splitAmp_append (p rest : List Char) (h : ∀ c ∈ p, ¬ c = '&') :
    splitAmp (p ++ '&' :: rest) = p :: splitAmp rest := by
  induction p with
  | nil => simp [splitAmp]
  | cons c q ih =>
    have hc : ¬ c = '&' := h c (List.mem_cons_self c q)
    have hq := ih (fun x hx => h x (List.mem_cons_of_mem c hx))
    simp only [List.cons_append, splitAmp, List.append_eq, if_neg hc, hq]

theorem splitAmp_joinAmp : ∀ (ps : List (List Char)),
    (∀ p ∈ ps, ¬ p = [] ∧ ∀ c ∈ p, ¬ c = '&') →
    (splitAmp (joinAmp ps)).filter (fun p => ¬ p.isEmpty) = ps := by
  intro ps
  induction ps with
  | nil => intro _; rfl
  | cons p qs ih =>
    intro h
    have hp := h p (List.mem_cons_self p qs)
    cases qs with
    | nil =>
      show (splitAmp (joinAmp [p])).filter (fun p => ¬ p.isEmpty) = [p]
      rw [show joinAmp [p] = p from rfl, splitAmp_no_amp p hp.2]
      simp [List.filter, hp.1, List.isEmpty_iff]
    | cons q rs =>
      rw [show joinAmp (p :: q :: rs) = p ++ '&' :: joinAmp (q :: rs) from rfl,
        splitAmp_append p _ hp.2]
      have hrest := ih (fun x hx => h x (List.mem_cons_of_mem p hx))
      rw [List.filter_cons, if_pos (by simpa [List.isEmpty_iff] using hp.1)]
      rw [hrest]

theorem key_split (k : List Char) (rest : List Char) (h : ∀ c ∈ k, ¬ c = '=') :
    (k ++ '=' :: rest).takeWhile (fun c => ¬ c = '=') = k ∧
    (k ++ '=' :: rest).dropWhile (fun c => ¬ c = '=') = '=' :: rest := by
  induction k with
  | nil => simp [List.takeWhile_cons, List.dropWhile_cons]
  | cons c q ih =>
    have hc : ¬ c = '=' := h c (List.mem_cons_self c q)
    have hq := ih (fun x hx => h x (List.mem_cons_of_mem c hx))
    have hq2 : List.takeWhile (fun c => !decide (c = '=')) (q ++ '=' :: rest) = q ∧
        List.dropWhile (fun c => !decide (c = '=')) (q ++ '=' :: rest) = '=' :: rest := by
      simpa using hq
    simp [List.takeWhile_cons, List.dropWhile_cons, hc, hq2.1, hq2.2]

theorem decodePair_keyed (k : List Char) (v : Str)
    (hk : ∀ c ∈ k, ¬ c = '=') (hkd : decodeValue k = some k) :
    decodePair (k ++ '=' :: encodeValue v) = some (k, v) := by
  unfold decodePair
  rw [(key_split k _ hk).1, (key_split k _ hk).2]
  simp only [hkd, decodeValue_encodeValue]

/-- Conditions a query key must satisfy for the round trip. -/
def KeyOk (k : List Char) : Prop :=
  ¬ k = [] ∧ (∀ c ∈ k, ¬ c = '&') ∧ (∀ c ∈ k, ¬ c = '=') ∧ decodeValue k = some k

theorem key_ok_label : KeyOk ("label".toList) := by
  refine ⟨by decide, by decide, by decide, ?_⟩
  have h : encodeValue ("label".toList) = "label".toList := by decide
  have h2 := decodeValue_encodeValue ("label".toList)
  rwa [h] at h2

theorem key_ok_year : KeyOk ("year".toList) := by
  refine ⟨by decide, by decide, by decide, ?_⟩
  have h : encodeValue ("year".toList) = "year".toList := by decide
  have h2 := decodeValue_encodeValue ("year".toList)
  rwa [h] at h2

theorem key_ok_domain : KeyOk ("domain".toList) := by
  refine ⟨by decide, by decide, by decide, ?_⟩
  have h : encodeValue ("domain".toList) = "domain".toList := by decide
  have h2 := decodeValue_encodeValue ("domain".toList)
  rwa [h] at h2

theorem key_ok_address : KeyOk ("address".toList) := by
  refine ⟨by decide, by decide, by decide, ?_⟩
  have h : encodeValue ("address".toList) = "address".toList := by decide
  have h2 := decodeValue_encodeValue ("address".toList)
  rwa [h] at h2

theorem pair_piece_ok (k : List Char) (v : Str) (hk : KeyOk k) :
    ¬ (k ++ '=' :: encodeValue v) = [] ∧ ∀ c ∈ (k ++ '=' :: encodeValue v), ¬ c = '&' := by
  constructor
  · cases k <;> simp
  · intro c hc
    rcases List.mem_append.mp hc with h | h
    · exact hk.2.1 c h
    · rcases List.mem_cons.mp h with rfl | h2
      · decide
      · exact (encodeValue_sep v c h2).1

theorem parsePairs_joinAmp_pairs (kvs : List (List Char × Str))
    (h : ∀ kv ∈ kvs, KeyOk kv.1) :
    parsePairs (joinAmp (kvs.map (fun kv => kv.1 ++ '=' :: encodeValue kv.2))) = some kvs := by
  unfold parsePairs
  rw [splitAmp_joinAmp _ (by
    intro p hp
    rcases List.mem_map.mp hp with ⟨kv, hkv, rfl⟩
    exact pair_piece_ok kv.1 kv.2 (h kv hkv))]
  induction kvs with
  | nil => rfl
  | cons kv rest ih =>
    have hkv := h kv (List.mem_cons_self kv rest)
    rw [List.map_cons, List.mapM_cons,
      decodePair_keyed kv.1 kv.2 hkv.2.2.1 hkv.2.2.2,
      ih (fun x hx => h x (List.mem_cons_of_mem kv hx))]
    rfl

/-- The present (key, value) constraints of a filter, in the fixed field
order used by `to_url`. -/
def presentKVs (f : Filters) : List (List Char × Str) :=
  (match f.label with | some v => [("label".toList, v)] | none => []) ++
  (match f.year with | some v => [("year".toList, v)] | none => []) ++
  (match f.domain with | some v => [("domain".toList, v)] | none => []) ++
  (match f.address with | some v => [("address".toList, v)] | none => [])

theorem queryPairs_eq (f : Filters) :
    queryPairs f = (presentKVs f).map (fun kv => kv.1 ++ '=' :: encodeValue kv.2) := by
  obtain ⟨l, y, d, a⟩ := f
  cases l <;> cases y <;> cases d <;> cases a <;> rfl

theorem mem_opt_pair {key : List Char} {o : Option Str} {kv : List Char × Str}
    (h : kv ∈ (match o with | some v => [(key, v)] | none => ([] : List (List Char × Str)))) :
    kv.1 = key := by
  cases o with
  | none => cases h
  | some v =>
    simp at h
    rw [h]

theorem presentKVs_cond (f : Filters) : ∀ kv ∈ presentKVs f, KeyOk kv.1 := by
  intro kv hkv
  simp only [presentKVs, List.mem_append] at hkv
  rcases hkv with ((h | h) | h) | h
  · rw [mem_opt_pair h]; exact key_ok_label
  · rw [mem_opt_pair h]; exact key_ok_year
  · rw [mem_opt_pair h]; exact key_ok_domain
  · rw [mem_opt_pair h]; exact key_ok_address

theorem buildFilters_nil (acc : Filters) : buildFilters acc [] = some acc := rfl

theorem buildFilters_label (acc : Filters) (v : Str) (rest : List (Str × Str))
    (h : acc.label = none) :
    buildFilters acc (("label".toList, v) :: rest) = buildFilters { acc with label := some v } rest := by
  conv_lhs => unfold buildFilters
  rw [if_pos rfl, h]

theorem buildFilters_year (acc : Filters) (v : Str) (rest : List (Str × Str))
    (h : acc.year = none) :
    buildFilters acc (("year".toList, v) :: rest) = buildFilters { acc with year := some v } rest := by
  conv_lhs => unfold buildFilters
  rw [if_neg (by decide), if_pos rfl, h]

theorem buildFilters_domain (acc : Filters) (v : Str) (rest : List (Str × Str))
    (h : acc.domain = none) :
    buildFilters acc (("domain".toList, v) :: rest) = buildFilters { acc with domain := some v } rest := by
  conv_lhs => unfold buildFilters
  rw [if_neg (by decide), if_neg (by decide), if_pos rfl, h]

theorem buildFilters_address (acc : Filters) (v : Str) (rest : List (Str × Str))
    (h : acc.address = none) :
    buildFilters acc (("address".toList, v) :: rest) = buildFilters { acc with address := some v } rest := by
  conv_lhs => unfold buildFilters
  rw [if_neg (by decide), if_neg (by decide), if_neg (by decide), if_pos rfl, h]

theorem buildFilters_presentKVs (f : Filters) :
    buildFilters ⟨none, none, none, none⟩ (presentKVs f) = some f := by
  obtain ⟨l, y, d, a⟩ := f
  cases l <;> cases y <;> cases d <;> cases a <;>
    simp only [presentKVs, List.nil_append, List.append_nil, List.cons_append,
      List.append_assoc, List.singleton_append] <;>
    (repeat first
      | rw [buildFilters_label _ _ _ rfl]
      | rw [buildFilters_year _ _ _ rfl]
      | rw [buildFilters_domain _ _ _ rfl]
      | rw [buildFilters_address _ _ _ rfl]) <;>
    rfl

/-- C4: decoding the canonical URL encoding of any representable filter
yields the filter back: absent facets are omitted from the encoding (so
they decode to absent again, never to an empty string), present values
survive the form-urlencoding byte-exactly. -/
theorem decode_encode_roundtrip (f : Filters) : decodeUrl (toUrl f) = some f := by
  have h0 : decodeUrl (toUrl f) =
      (parsePairs (joinAmp (queryPairs f))).bind (buildFilters ⟨none, none, none, none⟩) := rfl
  rw [h0, queryPairs_eq, parsePairs_joinAmp_pairs _ (presentKVs_cond f)]
  show buildFilters ⟨none, none, none, none⟩ (presentKVs f) = some f
  exact buildFilters_presentKVs f

end GmailMbox

